import Mathlib

/-!
Verification of the rustypex typing-test engine.

The definitions below are a shallow embedding of the test-session state
machine in `src/lib.rs` (`Rustypex::test` and its `process_key` closure,
`Rustypex::classify_results`) and of the pure results calculator in
`src/results.rs` (`RustypexResults::accuracy`, `RustypexResults::wpm`).

Modelling conventions:
- The input buffer `input: Vec<char>` and the target text
  `original_text: Vec<char>` are `List Char`.
- The `usize` counters are `Nat` (they only ever grow by 1, far from
  overflow in any real session).
- Terminal rendering calls are side effects on a screen only; they are
  dropped, keeping the state updates and the returned status.
- `Instant` timestamps are real time and are not modelled; the duration
  in seconds is passed to `wpm` as a nonnegative rational parameter.
- `f64` arithmetic in `accuracy`/`wpm` is modelled over `ℚ`.  Division by
  a nonzero denominator is the exact rational value (the IEEE result is
  that value rounded, and every property proved here — membership in
  [0,1], equality with 0 or 1, nonnegativity, threshold comparison — is
  preserved by correct rounding at representable bounds).  Division by
  zero, which in `f64` yields NaN or an infinity, is modelled by `none`
  in an `Option ℚ` result for `accuracy`.
-/

/-- Key events as matched by the `process_key` closure in `Rustypex::test`:
`Key::Ctrl(c)`, `Key::Char(c)`, `Key::Backspace`, and the catch-all `_`
arm for every other key. -/
inductive RKey where
  | ctrl (c : Char)
  | char (c : Char)
  | backspace
  | other
deriving DecidableEq, Repr

/-- The `TestStatus` enum declared inside `Rustypex::test`. -/
inductive TestStatus where
  | notDone
  | done
  | quit
  | restart
deriving DecidableEq, Repr

/-- The mutable session state captured by the `process_key` closure:
`input: Vec<char>`, `num_errors`, `num_chars_typed`. -/
structure TestState where
  input : List Char
  numErrors : Nat
  numCharsTyped : Nat
deriving DecidableEq, Repr

/-- Initial session state: empty input buffer, both counters zero. -/
def initState : TestState := ⟨[], 0, 0⟩

/-- The `Key::Ctrl('w')` loop, acting on the reversed buffer: it pops
(head) characters while the buffer is nonempty and its last (here: head)
character is not a space.  Mirrors
`while !matches!(input.last(), Some(' ') | None) { input.pop(); }`. -/
def popWordRev : List Char → List Char
  | [] => []
  | c :: rest => if c = ' ' then c :: rest else popWordRev rest

/-- Effect of the `Key::Ctrl('w')` arm on the input buffer. -/
def popWord (input : List Char) : List Char :=
  (popWordRev input.reverse).reverse

/-- One step of the `process_key` closure in `Rustypex::test`
(src/lib.rs, the `match key` starting at the `Key::Ctrl('c')` arm).
Returns the updated state and the returned `TestStatus`; the arms that do
not return early fall through to `Ok(TestStatus::NotDone)`. -/
def processKey (target : List Char) (st : TestState) : RKey → TestState × TestStatus
  | RKey.ctrl c =>
      if c = 'c' then (st, TestStatus.quit)
      else if c = 'r' then (st, TestStatus.restart)
      else if c = 'w' then ({ st with input := popWord st.input }, TestStatus.notDone)
      else (st, TestStatus.notDone)
  | RKey.char c =>
      let input2 := st.input ++ [c]
      if target.length ≤ input2.length then
        ({ st with input := input2 }, TestStatus.done)
      else if target.get? (input2.length - 1) = some c then
        ({ input := input2, numErrors := st.numErrors,
           numCharsTyped := st.numCharsTyped + 1 }, TestStatus.notDone)
      else
        ({ input := input2, numErrors := st.numErrors + 1,
           numCharsTyped := st.numCharsTyped + 1 }, TestStatus.notDone)
  | RKey.backspace => ({ st with input := st.input.dropLast }, TestStatus.notDone)
  | RKey.other => (st, TestStatus.notDone)

/-- The key loop of `Rustypex::test`: keys are processed in order until a
status other than `NotDone` is returned (or the stream ends). -/
def runKeys (target : List Char) (st : TestState) : List RKey → TestState × TestStatus
  | [] => (st, TestStatus.notDone)
  | k :: ks =>
      match processKey target st k with
      | (st2, TestStatus.notDone) => runKeys target st2 ks
      | (st2, s) => (st2, s)

/-- The final element-wise comparison fold in `Rustypex::test`:
`input.iter().zip(original_text.iter()).fold((0, 0), ...)` producing
`(final_chars_typed_correctly, final_uncorrected_errors)`. -/
def finalCounts (input target : List Char) : Nat × Nat :=
  (input.zip target).foldl
    (fun acc p => if p.1 = p.2 then (acc.1 + 1, acc.2) else (acc.1, acc.2 + 1))
    (0, 0)

/-- The `RustypexResults` struct from src/results.rs, minus the two
`Instant` timestamps (real time, not modelled; see `wpm`). -/
structure RustypexResults where
  total_words : Nat
  total_chars_typed : Nat
  total_chars_in_text : Nat
  total_char_errors : Nat
  final_chars_typed_correctly : Nat
  final_uncorrected_errors : Nat
deriving DecidableEq, Repr

/-- Construction of the `RustypexResults` value in `Rustypex::test`,
performed unconditionally after the key loop, on every exit path. -/
def makeResults (numWords : Nat) (target : List Char) (st : TestState) : RustypexResults :=
  { total_words := numWords
    total_chars_typed := st.numCharsTyped
    total_chars_in_text := st.input.length
    total_char_errors := st.numErrors
    final_chars_typed_correctly := (finalCounts st.input target).1
    final_uncorrected_errors := (finalCounts st.input target).2 }

/-- `Rustypex::test` as a function of the target text and the key event
sequence: run the key loop from the fresh state and build the results
snapshot from the final state. -/
def test (numWords : Nat) (target : List Char) (ks : List RKey) :
    RustypexResults × TestStatus :=
  let r := runKeys target initState ks
  (makeResults numWords target r.1, r.2)

/-- `RustypexResults::accuracy` (src/results.rs):
`(total_chars_typed - total_char_errors) as f64 / total_chars_typed as f64`.
When `total_chars_typed = 0` the `f64` division has a zero divisor and
yields NaN (or an infinity), modelled as `none`; otherwise the exact
rational quotient. -/
def accuracy (r : RustypexResults) : Option ℚ :=
  if r.total_chars_typed = 0 then none
  else some (((r.total_chars_typed : ℚ) - (r.total_char_errors : ℚ))
              / (r.total_chars_typed : ℚ))

/-- `RustypexResults::wpm` (src/results.rs):
`(final_chars_typed_correctly / 5.0 - final_uncorrected_errors).max(0.0)
 / (duration_secs / 60.0)`, with the duration in seconds passed in as a
rational. -/
def wpm (r : RustypexResults) (durationSecs : ℚ) : ℚ :=
  max 0 ((r.final_chars_typed_correctly : ℚ) / 5 - (r.final_uncorrected_errors : ℚ))
    / (durationSecs / 60)

/-- `Rustypex::classify_results` (src/lib.rs): the ascending threshold
table on the wpm value. -/
def classify_results (w : ℚ) : String :=
  if w < 10 then "A turtle could type faster."
  else if w < 20 then "Not bad."
  else if w < 30 then "Just a tad below average."
  else if w < 40 then "You\x27re right at the average speed."
  else if w < 50 then "Great job, you\x27re above average!"
  else if w < 70 then "You type like a pro!"
  else "You\x27re a typing god!"

/-! ### Helper lemmas about the word-delete loop -/

theorem popWordRev_length_le (m : List Char) : (popWordRev m).length ≤ m.length := by
  induction m with
  | nil => simp [popWordRev]
  | cons c rest ih =>
      by_cases hc : c = ' '
      · simp [popWordRev, hc]
      · simp only [popWordRev, if_neg hc, List.length_cons]
        exact Nat.le_succ_of_le ih

theorem popWordRev_decomp (m : List Char) :
    ∃ pre, m = pre ++ popWordRev m ∧ ∀ c ∈ pre, c ≠ ' ' := by
  induction m with
  | nil => exact ⟨[], by simp [popWordRev], by simp⟩
  | cons c rest ih =>
      by_cases hc : c = ' '
      · exact ⟨[], by simp [popWordRev, hc], by simp⟩
      · obtain ⟨pre, hpre, hmem⟩ := ih
        refine ⟨c :: pre, ?_, ?_⟩
        · simp only [popWordRev, if_neg hc, List.cons_append]
          exact congrArg (c :: ·) hpre
        · intro x hx
          rcases List.mem_cons.mp hx with h | h
          · exact h ▸ hc
          · exact hmem x h

theorem popWordRev_head (m : List Char) :
    popWordRev m = [] ∨ (popWordRev m).head? = some ' ' := by
  induction m with
  | nil => exact Or.inl rfl
  | cons c rest ih =>
      by_cases hc : c = ' '
      · right
        simp [popWordRev, hc]
      · simpa [popWordRev, if_neg hc] using ih

theorem popWordRev_shrinks (c : Char) (rest : List Char) (hc : c ≠ ' ') :
    (popWordRev (c :: rest)).length < (c :: rest).length := by
  simp only [popWordRev, if_neg hc, List.length_cons]
  exact Nat.lt_succ_of_le (popWordRev_length_le rest)

theorem popWord_length_le (l : List Char) : (popWord l).length ≤ l.length := by
  calc (popWord l).length = (popWordRev l.reverse).length := by
        simp [popWord]
    _ ≤ l.reverse.length := popWordRev_length_le _
    _ = l.length := List.length_reverse _

theorem popWord_decomp (l : List Char) :
    ∃ suffix, l = popWord l ++ suffix ∧ ∀ c ∈ suffix, c ≠ ' ' := by
  obtain ⟨pre, hpre, hmem⟩ := popWordRev_decomp l.reverse
  refine ⟨pre.reverse, ?_, ?_⟩
  · have := congrArg List.reverse hpre
    simpa [popWord, List.reverse_append] using this
  · intro c hc
    exact hmem c (List.mem_reverse.mp hc)

theorem popWord_getLast (l : List Char) :
    popWord l = [] ∨ (popWord l).getLast? = some ' ' := by
  rcases popWordRev_head l.reverse with h | h
  · left
    simp [popWord, h]
  · right
    rw [popWord, List.getLast?_reverse]
    exact h

theorem popWord_of_last_space (l : List Char) (h : l.getLast? = some ' ') :
    popWord l = l := by
  have hrev : l.reverse.head? = some ' ' := by
    rw [List.head?_reverse]
    exact h
  match hl : l.reverse with
  | [] => simp [hl] at hrev
  | c :: rest =>
      have hc : c = ' ' := by
        rw [hl] at hrev
        simpa using hrev
      have : popWordRev l.reverse = l.reverse := by
        rw [hl, popWordRev, if_pos hc]
      simp [popWord, this]

theorem popWord_shrinks (l : List Char) (hne : l ≠ [])
    (h : l.getLast? ≠ some ' ') : (popWord l).length < l.length := by
  match hl : l.reverse with
  | [] =>
      exact absurd (by simpa using congrArg List.reverse hl) hne
  | c :: rest =>
      have hc : c ≠ ' ' := by
        intro hceq
        apply h
        rw [← List.head?_reverse, hl, hceq]
        rfl
      have hlt : (popWordRev l.reverse).length < l.reverse.length := by
        rw [hl]
        exact popWordRev_shrinks c rest hc
      calc (popWord l).length = (popWordRev l.reverse).length := by simp [popWord]
        _ < l.reverse.length := hlt
        _ = l.length := List.length_reverse _

/-! ### Helper lemmas about single steps and the key loop -/

theorem processKey_mono (target : List Char) (st : TestState) (k : RKey) :
    st.numErrors ≤ ((processKey target st k).1).numErrors ∧
    st.numCharsTyped ≤ ((processKey target st k).1).numCharsTyped := by
  cases k <;> dsimp only [processKey] <;> (try split_ifs) <;> (try dsimp only) <;> omega

theorem processKey_inv (target : List Char) (st : TestState) (k : RKey)
    (h : st.numErrors ≤ st.numCharsTyped) :
    ((processKey target st k).1).numErrors ≤ ((processKey target st k).1).numCharsTyped := by
  cases k <;> dsimp only [processKey] <;> (try split_ifs) <;> (try dsimp only) <;> omega

theorem runKeys_counters (target : List Char) :
    ∀ (ks : List RKey) (st : TestState), st.numErrors ≤ st.numCharsTyped →
      ((runKeys target st ks).1).numErrors ≤ ((runKeys target st ks).1).numCharsTyped := by
  intro ks
  induction ks with
  | nil => intro st h; exact h
  | cons k ks ih =>
      intro st h
      have hinv := processKey_inv target st k h
      rw [runKeys]
      rcases hpk : processKey target st k with ⟨st2, s⟩
      rw [hpk] at hinv
      cases s
      · exact ih st2 hinv
      · exact hinv
      · exact hinv
      · exact hinv

theorem processKey_length (target : List Char) (st : TestState) (k : RKey)
    (h : st.input.length < target.length) :
    ((processKey target st k).2 = TestStatus.done →
      ((processKey target st k).1).input.length = target.length) ∧
    ((processKey target st k).2 ≠ TestStatus.done →
      ((processKey target st k).1).input.length < target.length) := by
  cases k with
  | ctrl c =>
      dsimp only [processKey]
      split_ifs <;> dsimp only <;>
        refine ⟨fun hd => by simp at hd, fun _ => ?_⟩
      · exact h
      · exact h
      · exact lt_of_le_of_lt (popWord_length_le st.input) h
      · exact h
  | char c =>
      dsimp only [processKey]
      split_ifs with h1 h2 <;> dsimp only
      · refine ⟨fun _ => ?_, fun hd => absurd rfl hd⟩
        simp only [List.length_append, List.length_singleton] at h1 ⊢
        omega
      · refine ⟨fun hd => by simp at hd, fun _ => ?_⟩
        simp only [List.length_append, List.length_singleton] at h1 ⊢
        omega
      · refine ⟨fun hd => by simp at hd, fun _ => ?_⟩
        simp only [List.length_append, List.length_singleton] at h1 ⊢
        omega
  | backspace =>
      dsimp only [processKey]
      refine ⟨fun hd => by simp at hd, fun _ => ?_⟩
      exact lt_of_le_of_lt (List.length_dropLast st.input ▸ Nat.pred_le _) h
  | other =>
      exact ⟨fun hd => by simp [processKey] at hd, fun _ => h⟩

theorem runKeys_length (target : List Char) :
    ∀ (ks : List RKey) (st : TestState), st.input.length < target.length →
      ((runKeys target st ks).1).input.length ≤ target.length ∧
      ((runKeys target st ks).2 = TestStatus.notDone →
        ((runKeys target st ks).1).input.length < target.length) := by
  intro ks
  induction ks with
  | nil => exact fun st h => ⟨Nat.le_of_lt h, fun _ => h⟩
  | cons k ks ih =>
      intro st h
      have hstep := processKey_length target st k h
      rw [runKeys]
      rcases hpk : processKey target st k with ⟨st2, s⟩
      rw [hpk] at hstep
      cases s with
      | notDone =>
          exact ih st2 (hstep.2 (by simp))
      | done =>
          exact ⟨Nat.le_of_eq (hstep.1 rfl), fun hc => by simp at hc⟩
      | quit =>
          exact ⟨Nat.le_of_lt (hstep.2 (by simp)), fun hc => by simp at hc⟩
      | restart =>
          exact ⟨Nat.le_of_lt (hstep.2 (by simp)), fun hc => by simp at hc⟩

/-! ### Helper lemmas about the final comparison fold -/

theorem countsFold_sum :
    ∀ (l : List (Char × Char)) (a b : Nat),
      ((l.foldl (fun acc p => if p.1 = p.2 then (acc.1 + 1, acc.2) else (acc.1, acc.2 + 1))
          (a, b)).1
        + (l.foldl (fun acc p => if p.1 = p.2 then (acc.1 + 1, acc.2) else (acc.1, acc.2 + 1))
            (a, b)).2)
      = a + b + l.length := by
  intro l
  induction l with
  | nil => intro a b; simp
  | cons p l ih =>
      intro a b
      by_cases hp : p.1 = p.2 <;> simp only [List.foldl_cons, hp, if_true, if_false] <;>
        simp only [List.length_cons, ite_true, ite_false, ih] <;> omega

theorem finalCounts_sum (input target : List Char) :
    (finalCounts input target).1 + (finalCounts input target).2 =
      min input.length target.length := by
  rw [finalCounts, countsFold_sum]
  simp [List.length_zip]

theorem countsFold_self :
    ∀ (l : List Char) (a b : Nat),
      ((l.zip l).foldl (fun acc p => if p.1 = p.2 then (acc.1 + 1, acc.2) else (acc.1, acc.2 + 1))
          (a, b))
        = (a + l.length, b) := by
  intro l
  induction l with
  | nil => intro a b; simp
  | cons c l ih =>
      intro a b
      simp only [List.zip_cons_cons, List.foldl_cons, if_pos rfl, ih, List.length_cons,
        ite_true, Prod.mk.injEq]
      exact ⟨by omega, trivial⟩

theorem finalCounts_self (l : List Char) : finalCounts l l = (l.length, 0) := by
  rw [finalCounts, countsFold_self]
  simp

/-! ### Helper lemma: typing the target exactly -/

theorem runKeys_perfect :
    ∀ (rest pre target : List Char), target = pre ++ rest → rest ≠ [] →
      runKeys target ⟨pre, 0, pre.length⟩ (rest.map RKey.char) =
        (⟨target, 0, target.length - 1⟩, TestStatus.done) := by
  intro rest
  induction rest with
  | nil => intro pre target _ h; exact absurd rfl h
  | cons c rest ih =>
      intro pre target htgt _
      subst htgt
      cases rest with
      | nil =>
          have hstep : processKey (pre ++ [c]) ⟨pre, 0, pre.length⟩ (RKey.char c)
              = (⟨pre ++ [c], 0, pre.length⟩, TestStatus.done) := by
            dsimp only [processKey]
            rw [if_pos (le_refl _)]
          rw [List.map_cons, List.map_nil, runKeys, hstep]
          dsimp only
          simp [Prod.ext_iff, TestState.mk.injEq]
      | cons c2 rest2 =>
          have hstep : processKey (pre ++ c :: c2 :: rest2) ⟨pre, 0, pre.length⟩ (RKey.char c)
              = (⟨pre ++ [c], 0, pre.length + 1⟩, TestStatus.notDone) := by
            dsimp only [processKey]
            rw [if_neg ?hneg, if_pos ?hpos]
            case hneg =>
              simp only [List.length_append, List.length_cons, List.length_nil,
                List.length_singleton]
              omega
            case hpos =>
              have hidx : (pre ++ [c]).length - 1 = pre.length := by simp
              rw [hidx, List.get?_append_right (le_refl pre.length)]
              simp
          rw [List.map_cons, runKeys, hstep]
          dsimp only
          have hlen : (pre ++ [c]).length = pre.length + 1 := by simp
          have htail := ih (pre ++ [c]) (pre ++ c :: c2 :: rest2)
            (List.append_cons pre c (c2 :: rest2)) (List.cons_ne_nil c2 rest2)
          rw [hlen] at htail
          exact htail

/-! ### Claim C1 -/

/-- Claim C1 is refuted at a concrete input: with target "a" the cursor is
at the last position (p = 0 = length - 1), and processing the mismatching
character-key x returns Done before the counters are touched: chars_typed
stays 0 (the claim requires the increment to 1) and errors stays 0 (the
claim requires an increment on this mismatch). -/
theorem C1_counterexample :
    ((processKey ['a'] initState (RKey.char 'x')).1).numCharsTyped = 0 ∧
    ((processKey ['a'] initState (RKey.char 'x')).1).numErrors = 0 ∧
    (processKey ['a'] initState (RKey.char 'x')).2 = TestStatus.done ∧
    ¬(((processKey ['a'] initState (RKey.char 'x')).1).numCharsTyped
        = initState.numCharsTyped + 1) := by
  decide

/-- Claim C1 as amended: for every session whose cursor is at the last
target position, processing a character-key c appends c to the input
buffer and transitions the session to Done (ended_at is captured by the
caller right after the loop), but, unlike a non-completing keystroke, it
does not increment chars_typed and does not compare c against the target:
both counters are returned unchanged. -/
theorem C1_completing_keystroke (target : List Char) (st : TestState) (c : Char)
    (h : st.input.length + 1 = target.length) :
    processKey target st (RKey.char c)
      = ({ st with input := st.input ++ [c] }, TestStatus.done) := by
  dsimp only [processKey]
  rw [if_pos]
  simp only [List.length_append, List.length_singleton]
  omega

/-- Witness for the amended C1 at a concrete completing keystroke. -/
theorem C1_completing_keystroke_witness :
    processKey ['a', 'b'] ⟨['a'], 0, 1⟩ (RKey.char 'b')
      = (⟨['a', 'b'], 0, 1⟩, TestStatus.done) :=
  C1_completing_keystroke ['a', 'b'] ⟨['a'], 0, 1⟩ 'b' (by decide)

/-! ### Claim C2 -/

/-- Claim C2 is refuted at a concrete input: with input buffer "a "
(p = 2 > 0) the word-delete key removes nothing at all — the loop stops
as soon as the last character of the buffer is a space, so the space is
never popped, contradicting both "popping the space itself when one is
present" and "it always removes at least one character when p > 0". -/
theorem C2_counterexample :
    ((processKey ['a', ' ', 'b'] ⟨['a', ' '], 0, 2⟩ (RKey.ctrl 'w')).1).input = ['a', ' '] ∧
    0 < (['a', ' '] : List Char).length := by
  decide

/-- Claim C2 as amended: the word-delete key pops characters from the end
of the input buffer while the buffer is nonempty and its last character
is not a space.  Hence the removed characters are exactly a trailing run
of non-space characters; afterwards the buffer is empty or ends in a
space; a trailing space is never popped (a buffer already ending in a
space is left unchanged, so nothing is removed even though p > 0); and at
least one character is removed exactly when the buffer is nonempty and
does not end in a space.  The resulting status is NotDone. -/
theorem C2_word_delete (target : List Char) (st : TestState) :
    (∃ suffix, st.input = ((processKey target st (RKey.ctrl 'w')).1).input ++ suffix ∧
        ∀ c ∈ suffix, c ≠ ' ') ∧
    (((processKey target st (RKey.ctrl 'w')).1).input = [] ∨
      ((processKey target st (RKey.ctrl 'w')).1).input.getLast? = some ' ') ∧
    (st.input.getLast? = some ' ' →
      ((processKey target st (RKey.ctrl 'w')).1).input = st.input) ∧
    (st.input ≠ [] → st.input.getLast? ≠ some ' ' →
      ((processKey target st (RKey.ctrl 'w')).1).input.length < st.input.length) ∧
    (processKey target st (RKey.ctrl 'w')).2 = TestStatus.notDone := by
  have hpk : processKey target st (RKey.ctrl 'w')
      = ({ st with input := popWord st.input }, TestStatus.notDone) := by
    dsimp only [processKey]
    rw [if_neg (by decide), if_neg (by decide), if_pos rfl]
  rw [hpk]
  dsimp only
  exact ⟨popWord_decomp st.input, popWord_getLast st.input,
    popWord_of_last_space st.input, popWord_shrinks st.input, rfl⟩

/-- Witness for the amended C2: on buffer "a b" (nonempty, not ending in
a space) word-delete removes at least one character. -/
theorem C2_word_delete_witness :
    ((processKey [] ⟨['a', ' ', 'b'], 1, 3⟩ (RKey.ctrl 'w')).1).input.length
      < (⟨['a', ' ', 'b'], 1, 3⟩ : TestState).input.length :=
  (C2_word_delete [] ⟨['a', ' ', 'b'], 1, 3⟩).2.2.2.1 (by decide) (by decide)

/-! ### Claim C5 -/

/-- Claim C5 (confirmed): a single processed key event never decreases
either counter (so both are monotonically non-decreasing along any event
sequence), and for every session, after any sequence of key events
starting from the fresh state, errors is at most chars_typed — hence the
inequality holds at every point during processing, each point being the
end of a run on a prefix of the event sequence. -/
theorem C5_counters :
    (∀ (target : List Char) (st : TestState) (k : RKey),
        st.numErrors ≤ ((processKey target st k).1).numErrors ∧
        st.numCharsTyped ≤ ((processKey target st k).1).numCharsTyped) ∧
    (∀ (target : List Char) (ks : List RKey),
        ((runKeys target initState ks).1).numErrors
          ≤ ((runKeys target initState ks).1).numCharsTyped) :=
  ⟨processKey_mono,
   fun target ks => runKeys_counters target ks initState (Nat.le_refl 0)⟩

/-! ### Claim C6 -/

/-- Claim C6 (confirmed, for a nonempty target text): for every session
and every sequence of key events, the input buffer length never exceeds
the target length (0 ≤ length is automatic for a Nat-length list).
During the run the inequality is strict; a completing keystroke makes it
an equality and ends the session.  A nonempty target is assumed: a real
session always has one, the target being a space-joined sequence of
nonempty words. -/
theorem C6_input_length (target : List Char) (h : 0 < target.length) (ks : List RKey) :
    ((runKeys target initState ks).1).input.length ≤ target.length :=
  (runKeys_length target ks initState h).1

/-- Witness for C6 on a concrete target and key sequence. -/
theorem C6_input_length_witness :
    ((runKeys ['a', 'b'] initState [RKey.char 'a']).1).input.length ≤ 2 :=
  C6_input_length ['a', 'b'] (by decide) [RKey.char 'a']

/-! ### Claim C7 -/

/-- Claim C7 (confirmed): processing a backspace key or a word-delete key
leaves both chars_typed and errors unchanged, whatever the session state
and however many characters are removed from the input buffer. -/
theorem C7_corrections_frame (target : List Char) (st : TestState) :
    ((processKey target st RKey.backspace).1).numCharsTyped = st.numCharsTyped ∧
    ((processKey target st RKey.backspace).1).numErrors = st.numErrors ∧
    ((processKey target st (RKey.ctrl 'w')).1).numCharsTyped = st.numCharsTyped ∧
    ((processKey target st (RKey.ctrl 'w')).1).numErrors = st.numErrors := by
  refine ⟨rfl, rfl, ?_, ?_⟩ <;> dsimp only [processKey] <;>
    rw [if_neg (by decide), if_neg (by decide), if_pos rfl]

/-! ### Claim C3 -/

/-- Claim C3 is refuted at a concrete results snapshot: a session quit
before any character keystroke has chars_typed = 0, and accuracy is then
the unguarded division 0/0 — NaN in the f64 of the source, modelled as
none — not the claimed 0. -/
theorem C3_counterexample :
    (test 2 ['a', 'b'] [RKey.ctrl 'c']).2 = TestStatus.quit ∧
    ((test 2 ['a', 'b'] [RKey.ctrl 'c']).1).total_chars_typed = 0 ∧
    accuracy (test 2 ['a', 'b'] [RKey.ctrl 'c']).1 = none ∧
    accuracy (test 2 ['a', 'b'] [RKey.ctrl 'c']).1 ≠ some 0 := by
  decide

/-- Claim C3 as amended: for every results snapshot with
errors ≤ chars_typed, when chars_typed > 0 the accuracy equals
(chars_typed − errors) / chars_typed and lies in [0, 1]; when
chars_typed = 0 the division is unguarded and the accuracy is undefined
(NaN, modelled none), not 0. -/
theorem C3_accuracy (r : RustypexResults)
    (h : r.total_char_errors ≤ r.total_chars_typed) :
    (0 < r.total_chars_typed →
      accuracy r = some (((r.total_chars_typed : ℚ) - (r.total_char_errors : ℚ))
                          / (r.total_chars_typed : ℚ))
      ∧ (0 : ℚ) ≤ ((r.total_chars_typed : ℚ) - (r.total_char_errors : ℚ))
                    / (r.total_chars_typed : ℚ)
      ∧ ((r.total_chars_typed : ℚ) - (r.total_char_errors : ℚ))
          / (r.total_chars_typed : ℚ) ≤ 1) ∧
    (r.total_chars_typed = 0 → accuracy r = none) := by
  constructor
  · intro hpos
    have hne : r.total_chars_typed ≠ 0 := Nat.pos_iff_ne_zero.mp hpos
    have hqpos : (0 : ℚ) < (r.total_chars_typed : ℚ) := by
      exact_mod_cast hpos
    refine ⟨?_, ?_, ?_⟩
    · rw [accuracy, if_neg hne]
    · apply div_nonneg _ (le_of_lt hqpos)
      rw [sub_nonneg]
      exact_mod_cast h
    · rw [div_le_one hqpos]
      have : (0 : ℚ) ≤ (r.total_char_errors : ℚ) := Nat.cast_nonneg _
      linarith
  · intro h0
    rw [accuracy, if_pos h0]

/-- Witness for the amended C3 on a concrete snapshot with 3 chars typed
and 1 error: accuracy is (3 − 1)/3 and lies in [0, 1]. -/
theorem C3_accuracy_witness :
    accuracy ⟨0, 3, 3, 1, 2, 1⟩
      = some ((((3 : ℕ) : ℚ) - ((1 : ℕ) : ℚ)) / ((3 : ℕ) : ℚ))
    ∧ (0 : ℚ) ≤ (((3 : ℕ) : ℚ) - ((1 : ℕ) : ℚ)) / ((3 : ℕ) : ℚ)
    ∧ (((3 : ℕ) : ℚ) - ((1 : ℕ) : ℚ)) / ((3 : ℕ) : ℚ) ≤ 1 :=
  (C3_accuracy ⟨0, 3, 3, 1, 2, 1⟩ (by decide)).1 (by decide)

/-! ### Claim C4 -/

/-- Claim C4 is refuted at a concrete input: with the one-character
target "a", typing it exactly completes the session in Done with
final_uncorrected_errors = 0, but the completing keystroke is not
counted, so chars_typed = 0 and accuracy is the unguarded 0/0 (NaN,
modelled none), not 1.0. -/
theorem C4_counterexample :
    (test 1 ['a'] [RKey.char 'a']).2 = TestStatus.done ∧
    ((test 1 ['a'] [RKey.char 'a']).1).final_uncorrected_errors = 0 ∧
    ((test 1 ['a'] [RKey.char 'a']).1).total_chars_typed = 0 ∧
    accuracy (test 1 ['a'] [RKey.char 'a']).1 = none ∧
    accuracy (test 1 ['a'] [RKey.char 'a']).1 ≠ some 1 := by
  decide

/-- Claim C4 as amended: for every target text of length at least 2, a
session in which the user types the target exactly, character by
character with zero mistakes and no corrections, ends in Done with
accuracy = 1 and final_uncorrected_errors = 0.  (For a length-1 target
the session still ends in Done with final_uncorrected_errors = 0, but
chars_typed is 0 and the accuracy is the unguarded 0/0.) -/
theorem C4_perfect_typing (numWords : Nat) (target : List Char)
    (h : 2 ≤ target.length) :
    (test numWords target (target.map RKey.char)).2 = TestStatus.done ∧
    accuracy ((test numWords target (target.map RKey.char)).1) = some 1 ∧
    ((test numWords target (target.map RKey.char)).1).final_uncorrected_errors = 0 := by
  have hne : target ≠ [] := by
    intro h0
    rw [h0] at h
    simp at h
  have hrun : runKeys target initState (target.map RKey.char)
      = (⟨target, 0, target.length - 1⟩, TestStatus.done) :=
    runKeys_perfect target [] target (by simp) hne
  dsimp only [test, makeResults]
  rw [hrun]
  dsimp only
  refine ⟨rfl, ?_, ?_⟩
  · rw [accuracy]
    dsimp only
    rw [if_neg (by omega)]
    have hcast : ((target.length - 1 : ℕ) : ℚ) ≠ 0 := by
      rw [Nat.cast_ne_zero]
      omega
    rw [Nat.cast_zero, sub_zero, div_self hcast]
  · rw [finalCounts_self]

/-- Witness for the amended C4 on the two-character target "ab". -/
theorem C4_perfect_typing_witness :
    (test 1 ['a', 'b'] ((['a', 'b'] : List Char).map RKey.char)).2 = TestStatus.done ∧
    accuracy ((test 1 ['a', 'b'] ((['a', 'b'] : List Char).map RKey.char)).1) = some 1 ∧
    ((test 1 ['a', 'b'] ((['a', 'b'] : List Char).map RKey.char)).1).final_uncorrected_errors
      = 0 :=
  C4_perfect_typing 1 ['a', 'b'] (by decide)

/-! ### Claim C8 -/

/-- Claim C8 (confirmed): the wpm of a results snapshot equals
max(0, final_chars_typed_correctly / 5 − final_uncorrected_errors)
divided by (duration_in_seconds / 60), and for every nonnegative
duration the wpm is never negative (the numerator is floored at zero
before the division). -/
theorem C8_wpm (r : RustypexResults) (d : ℚ) (hd : 0 ≤ d) :
    wpm r d = max 0 ((r.final_chars_typed_correctly : ℚ) / 5
                      - (r.final_uncorrected_errors : ℚ)) / (d / 60) ∧
    0 ≤ wpm r d := by
  refine ⟨rfl, ?_⟩
  rw [wpm]
  exact div_nonneg (le_max_left 0 _) (div_nonneg hd (by norm_num))

/-- Witness for C8: ten correct characters, no uncorrected errors, in
60 seconds. -/
theorem C8_wpm_witness :
    wpm ⟨0, 12, 10, 2, 10, 0⟩ 60
        = max 0 ((((10 : ℕ)) : ℚ) / 5 - (((0 : ℕ)) : ℚ)) / ((60 : ℚ) / 60) ∧
    0 ≤ wpm ⟨0, 12, 10, 2, 10, 0⟩ 60 :=
  C8_wpm ⟨0, 12, 10, 2, 10, 0⟩ 60 (by norm_num)

/-! ### Claim C9 -/

/-- Claim C9 (confirmed): the qualitative remark is chosen by the fixed
ascending threshold table, and each upper bound is exclusive: a wpm
exactly equal to a boundary falls into the higher bucket (for example,
classify_results 10 is the second message, not the first). -/
theorem C9_classify (w : ℚ) :
    (w < 10 → classify_results w = "A turtle could type faster.") ∧
    (10 ≤ w → w < 20 → classify_results w = "Not bad.") ∧
    (20 ≤ w → w < 30 → classify_results w = "Just a tad below average.") ∧
    (30 ≤ w → w < 40 → classify_results w = "You\x27re right at the average speed.") ∧
    (40 ≤ w → w < 50 → classify_results w = "Great job, you\x27re above average!") ∧
    (50 ≤ w → w < 70 → classify_results w = "You type like a pro!") ∧
    (70 ≤ w → classify_results w = "You\x27re a typing god!") := by
  refine ⟨?_, ?_, ?_, ?_, ?_, ?_, ?_⟩
  · intro h1
    rw [classify_results, if_pos h1]
  · intro h1 h2
    rw [classify_results, if_neg (by linarith), if_pos h2]
  · intro h1 h2
    rw [classify_results, if_neg (by linarith), if_neg (by linarith), if_pos h2]
  · intro h1 h2
    rw [classify_results, if_neg (by linarith), if_neg (by linarith),
      if_neg (by linarith), if_pos h2]
  · intro h1 h2
    rw [classify_results, if_neg (by linarith), if_neg (by linarith),
      if_neg (by linarith), if_neg (by linarith), if_pos h2]
  · intro h1 h2
    rw [classify_results, if_neg (by linarith), if_neg (by linarith),
      if_neg (by linarith), if_neg (by linarith), if_neg (by linarith), if_pos h2]
  · intro h1
    rw [classify_results, if_neg (by linarith), if_neg (by linarith),
      if_neg (by linarith), if_neg (by linarith), if_neg (by linarith),
      if_neg (by linarith)]

/-- Witness for C9 at the boundary value 10: it falls into the higher
bucket. -/
theorem C9_classify_witness : classify_results 10 = "Not bad." :=
  (C9_classify 10).2.1 (by norm_num) (by norm_num)

/-! ### Claim C10 -/

/-- Claim C10 (confirmed): for every session and every key event
sequence — whatever the final status (Done, Quit, Restart, or an
exhausted stream), since the results snapshot is built unconditionally
after the key loop — the snapshot satisfies
final_chars_typed_correctly + final_uncorrected_errors
= min (final input buffer length) (target text length): the final
element-wise comparison runs over the zipped prefix of the input buffer
and the target, and each zipped position lands in exactly one of the two
tallies. -/
theorem C10_final_comparison (numWords : Nat) (target : List Char) (ks : List RKey) :
    ((test numWords target ks).1).final_chars_typed_correctly
      + ((test numWords target ks).1).final_uncorrected_errors
      = min ((test numWords target ks).1).total_chars_in_text target.length := by
  dsimp only [test, makeResults]
  exact finalCounts_sum _ target

